import Mathlib

/-!
Shallow embedding of `phecs` (src/phecs/phecs.py): a minimal entity-component
store.  Python dicts are modelled as association lists that keep insertion
order and update-in-place semantics; component type tags are modelled as `Nat`
and component payloads as `Int`; Python `None`-or-`Error` returns become
`Option Error`; a raised exception while consuming a generator becomes the
`PyResult.raised` constructor.
-/

namespace Phecs

/-- `class Error(Enum)` with the two failure kinds. -/
inductive Error
  | NoSuchEntity
  | NoSuchComponent
deriving DecidableEq, Repr

/-- `class Entity`: wraps a single integer identifier `__id`. -/
structure Entity where
  id : Int
deriving DecidableEq, Repr

/-- The right-hand side accepted by `Entity.__eq__`: another `Entity` or a raw
`int`. -/
inductive EntityOrInt
  | ent (e : Entity)
  | int (n : Int)
deriving DecidableEq, Repr

/-- `Entity.__eq__`: against a raw `int` it compares the wrapped id with the
int; against another `Entity` it compares the two ids. -/
def Entity.eq (self : Entity) (other : EntityOrInt) : Bool :=
  match other with
  | .int n => self.id == n
  | .ent e => self.id == e.id

/-- A component value: its runtime type (`type(component)`) is the `tag`, the
payload distinguishes values of the same type. -/
structure Component where
  tag : Nat
  val : Int
deriving DecidableEq, Repr

/-- A per-entity component map: Python `dict[Type, Any]`, insertion ordered,
keyed by `tag`. -/
abbrev CompMap := List Component

/-- `c in components` (dict key membership on the type tag). -/
def compHas (cs : CompMap) (t : Nat) : Bool :=
  cs.any (fun c => c.tag == t)

/-- `components[t]` as a partial lookup (first — and only — entry keyed `t`). -/
def compGet? (cs : CompMap) (t : Nat) : Option Component :=
  cs.find? (fun c => c.tag == t)

/-- `components[type(c)] = c`: Python dict update — an existing key keeps its
position and gets the new value, a fresh key is appended. -/
def compSet (cs : CompMap) (c : Component) : CompMap :=
  if compHas cs c.tag then
    cs.map (fun x => if x.tag == c.tag then c else x)
  else
    cs ++ [c]

/-- `del components[t]` (guarded by presence at every call site, so plain
removal of the keyed entries). -/
def compDel (cs : CompMap) (t : Nat) : CompMap :=
  cs.filter (fun c => c.tag != t)

/-- `class InternalEntity`: the stored record, carrying the entity handle and
its component dict. -/
structure InternalEntity where
  entity : Entity
  components : CompMap
deriving DecidableEq, Repr

/-- The World's `entities` dict: `Dict[Entity, InternalEntity]`, keyed by
`Entity` whose hash/eq are by id. -/
abbrev EntMap := List (Entity × InternalEntity)

/-- `entity in self.entities`. -/
def entMember (es : EntMap) (e : Entity) : Bool :=
  es.any (fun p => p.1.id == e.id)

/-- `self.entities[entity]` as a partial lookup. -/
def entLookup? (es : EntMap) (e : Entity) : Option InternalEntity :=
  (es.find? (fun p => p.1.id == e.id)).map Prod.snd

/-- `self.entities[k] = v`: dict update — an existing key keeps its key object
and position and gets the new value, a fresh key is appended. -/
def entSet (es : EntMap) (k : Entity) (v : InternalEntity) : EntMap :=
  if entMember es k then
    es.map (fun p => if p.1.id == k.id then (p.1, v) else p)
  else
    es ++ [(k, v)]

/-- `del self.entities[k]`. -/
def entDel (es : EntMap) (k : Entity) : EntMap :=
  es.filter (fun p => p.1.id != k.id)

/-- In-place mutation of the record stored under key `e`
(`self.entities[e].components ...`). -/
def entUpdate (es : EntMap) (e : Entity) (f : InternalEntity → InternalEntity) :
    EntMap :=
  es.map (fun p => if p.1.id == e.id then (p.1, f p.2) else p)

/-- The `has=` / `without=` keyword argument: absent, a single type, or a
list/tuple of types. -/
inductive HasArg
  | none
  | single (t : Nat)
  | list (ts : List Nat)
deriving DecidableEq, Repr

/-- The normalization done at the top of `World.find`:
`has if isinstance(has, (list, tuple)) else [has] if has is not None else None`. -/
def HasArg.normalize : HasArg → Option (List Nat)
  | .none => Option.none
  | .single t => some [t]
  | .list ts => some ts

/-- Python truthiness of the normalized value: `None` and the empty list are
falsy, everything else truthy. -/
def listTruthy : Option (List Nat) → Bool
  | Option.none => false
  | some ts => !ts.isEmpty

/-- Python truthiness of the raw keyword argument (`if has:` in `satisfies` /
`find_on`): `None` is falsy, a type object is truthy, a list/tuple is truthy
iff nonempty. -/
def HasArg.truthy : HasArg → Bool
  | .none => false
  | .single _ => true
  | .list ts => !ts.isEmpty

/-- `class World`: identifier allocator plus the entity dict. -/
structure World where
  next_entity_id : Int
  entities : EntMap
deriving DecidableEq, Repr

/-- `World.__init__`. -/
def World.init : World :=
  { next_entity_id := 0, entities := [] }

/-- `World.spawn(*components)`: allocate `Entity(next_entity_id)`, bump the
counter, register a fresh record, then insert each component keyed by its
type.  Returns the new world and the spawned entity. -/
def World.spawn (w : World) (components : List Component) : World × Entity :=
  let e : Entity := ⟨w.next_entity_id⟩
  let ie : InternalEntity := ⟨e, components.foldl compSet []⟩
  (⟨w.next_entity_id + 1, entSet w.entities e ie⟩, e)

/-- `World.spawn_at(entity, *components)`: register (or re-register) the given
entity with a fresh record populated from the components; the allocator is not
consulted. -/
def World.spawn_at (w : World) (e : Entity) (components : List Component) :
    World :=
  ⟨w.next_entity_id, entSet w.entities e ⟨e, components.foldl compSet []⟩⟩

/-- `World.despawn(entity)`: delete the entry if present, otherwise return
`Error.NoSuchEntity`. -/
def World.despawn (w : World) (e : Entity) : World × Option Error :=
  if entMember w.entities e then
    (⟨w.next_entity_id, entDel w.entities e⟩, Option.none)
  else
    (w, some Error.NoSuchEntity)

/-- `World.clear()`: `self.entities.clear()`. -/
def World.clear (w : World) : World :=
  ⟨w.next_entity_id, []⟩

/-- `World.contains(entity)`. -/
def World.contains (w : World) (e : Entity) : Bool :=
  entMember w.entities e

/-- One candidate row of `World.find`: the body of the loop over
`self.entities.values()`, with `hasN`/`woN` the already-normalized filters. -/
def findRow (R : List Nat) (hasN woN : Option (List Nat))
    (ie : InternalEntity) : Option (Entity × List Component) :=
  if listTruthy hasN &&
      (hasN.getD []).any (fun c => !compHas ie.components c) then
    Option.none
  else if listTruthy woN &&
      (woN.getD []).any (fun c => compHas ie.components c) then
    Option.none
  else if R.all (fun c => compHas ie.components c) then
    some (ie.entity, R.filterMap (fun c => compGet? ie.components c))
  else
    Option.none

/-- `World.find(*R, has=, without=)`: normalize the filters, then scan
`self.entities.values()` in registration order, yielding
`(internal_entity.entity, *(components[c] for c in R))` for each record that
passes the has check, the without check, and has every requested type. -/
def World.find (w : World) (R : List Nat) (has without : HasArg) :
    List (Entity × List Component) :=
  w.entities.filterMap (fun p => findRow R has.normalize without.normalize p.2)

/-- Outcome of consuming a Python generator to exhaustion: either an exception
propagates (`raised`) or it yields a finite list. -/
inductive PyResult (α : Type)
  | raised
  | ok (xs : List α)
deriving DecidableEq, Repr

/-- `World.find_on(entity, *R, has=, without=)`, translated faithfully: the
`yield from []` statements yield nothing and do NOT return, so when the entity
is absent execution falls through to `self.entities[entity]` and raises
`KeyError`, and the has/without blocks have no effect on what is yielded. -/
def World.find_on (w : World) (e : Entity) (R : List Nat)
    (has without : HasArg) : PyResult (Entity × List Component) :=
  match entLookup? w.entities e with
  | Option.none => .raised
  | some ie =>
    if R.all (fun c => compHas ie.components c) then
      .ok [(ie.entity, R.filterMap (fun c => compGet? ie.components c))]
    else
      .ok []

/-- `World.get(entity, component_type)`: the component if both the entity and
the type are present, `None` otherwise. -/
def World.get (w : World) (e : Entity) (t : Nat) : Option Component :=
  match entLookup? w.entities e with
  | Option.none => Option.none
  | some ie => compGet? ie.components t

/-- `World.satisfies(entity, has=, without=)`: `False` for a missing entity;
otherwise the raw (un-normalized) has/without checks, each skipped when the
argument is falsy. -/
def World.satisfies (w : World) (e : Entity) (has without : HasArg) : Bool :=
  match entLookup? w.entities e with
  | Option.none => false
  | some ie =>
    let hFail : Bool :=
      match has with
      | .none => false
      | .single t => !compHas ie.components t
      | .list ts => !ts.isEmpty && ts.any (fun t => !compHas ie.components t)
    let wFail : Bool :=
      match without with
      | .none => false
      | .single t => compHas ie.components t
      | .list ts => !ts.isEmpty && ts.any (fun t => compHas ie.components t)
    !hFail && !wFail

/-- `World.is_empty(entity)`. -/
def World.is_empty (w : World) (e : Entity) : Bool :=
  match entLookup? w.entities e with
  | Option.none => false
  | some ie => ie.components.isEmpty

/-- `World.insert(entity, *components)`: for a present entity, set each
component under its type tag in the existing record; otherwise return
`Error.NoSuchEntity` without mutating. -/
def World.insert (w : World) (e : Entity) (components : List Component) :
    World × Option Error :=
  if entMember w.entities e then
    (⟨w.next_entity_id,
      entUpdate w.entities e
        (fun ie => ⟨ie.entity, components.foldl compSet ie.components⟩)⟩,
     Option.none)
  else
    (w, some Error.NoSuchEntity)

/-- `World.remove(entity, *component_types)`: for a present entity, delete each
listed tag that is present; a missing entity is a silent no-op. -/
def World.remove (w : World) (e : Entity) (ts : List Nat) : World :=
  if entMember w.entities e then
    ⟨w.next_entity_id,
     entUpdate w.entities e (fun ie => ⟨ie.entity, ts.foldl compDel ie.components⟩)⟩
  else
    w

/-- `World.take(entity)`: snapshot `tuple(components.values())`, despawn, and
return the snapshot; `()` for a missing entity. -/
def World.take (w : World) (e : Entity) : World × List Component :=
  match entLookup? w.entities e with
  | Option.none => (w, [])
  | some ie => ((w.despawn e).1, ie.components)

/-- `World.iter()`: `internal_entity.entity` for every stored record, in
registration order. -/
def World.iter (w : World) : List Entity :=
  w.entities.map (fun p => p.2.entity)

/-- `World.iter_every()`: every dict key paired with
`tuple(components.values())`. -/
def World.iter_every (w : World) : List (Entity × List Component) :=
  w.entities.map (fun p => (p.1, p.2.components))

/-! ### Spec-side definitions (formalizing the specification's wording) -/

/-- Spec wording: every type of the (normalized) filter is a key of the map;
an absent filter is vacuously true. -/
def allPresent (cs : CompMap) : Option (List Nat) → Bool
  | Option.none => true
  | some ts => ts.all (fun t => compHas cs t)

/-- Spec wording: no type of the (normalized) filter is a key of the map; an
absent filter is vacuously true. -/
def nonePresent (cs : CompMap) : Option (List Nat) → Bool
  | Option.none => true
  | some ts => ts.all (fun t => !compHas cs t)

/-- Spec wording of the has/without portion of the matching rule: every type
in H (after normalizing a single type to a one-element set) is a key of the
map, and no type in W is a key of the map. -/
def specHWMatch (cs : CompMap) (has without : HasArg) : Bool :=
  allPresent cs has.normalize && nonePresent cs without.normalize

/-- Spec wording of the full matching rule: every type in R present, plus the
has/without checks. -/
def specMatch (cs : CompMap) (R : List Nat) (has without : HasArg) : Bool :=
  R.all (fun c => compHas cs c) && specHWMatch cs has without

/-- The components of `e` as stored in the world (empty when absent). -/
def componentsOf (w : World) (e : Entity) : CompMap :=
  (entLookup? w.entities e).elim [] (fun ie => ie.components)

/-! ### Operation traces (for trace-level claims) -/

/-- One public mutating operation on a World. -/
inductive Op
  | spawn (cs : List Component)
  | spawn_at (e : Entity) (cs : List Component)
  | despawn (e : Entity)
  | clear
  | insert (e : Entity) (cs : List Component)
  | remove (e : Entity) (ts : List Nat)
  | take (e : Entity)
deriving DecidableEq, Repr

/-- Apply one operation, discarding any returned value. -/
def applyOp (w : World) : Op → World
  | .spawn cs => (w.spawn cs).1
  | .spawn_at e cs => w.spawn_at e cs
  | .despawn e => (w.despawn e).1
  | .clear => w.clear
  | .insert e cs => (w.insert e cs).1
  | .remove e ts => w.remove e ts
  | .take e => (w.take e).1

/-- Run a sequence of operations starting from a fresh World. -/
def run (ops : List Op) : World :=
  ops.foldl applyOp World.init

/-- The identifier an operation hands back to the caller: `spawn` returns the
spawned entity, every other operation returns no entity. -/
def opIds (w : World) : Op → List Int
  | .spawn cs => [(w.spawn cs).2.id]
  | _ => []

/-- The identifiers of the entities returned by the spawn calls of a trace, in
call order. -/
def spawnIds (w : World) : List Op → List Int
  | [] => []
  | op :: rest => opIds w op ++ spawnIds (applyOp w op) rest

/-- How many spawn operations a trace contains. -/
def numSpawns : List Op → Nat
  | [] => 0
  | op :: rest =>
    (match op with | Op.spawn _ => 1 | _ => 0) + numSpawns rest

def Op.isSpawnOrDespawn : Op → Bool
  | .spawn _ => true
  | .despawn _ => true
  | _ => false

/-! ### Basic dictionary lemmas -/

theorem entMember_eq_isSome (es : EntMap) (e : Entity) :
    entMember es e = (entLookup? es e).isSome := by
  apply Bool.eq_iff_iff.mpr
  simp [entMember, entLookup?, List.any_eq_true, List.find?_isSome]

theorem entLookup?_mem {es : EntMap} {e : Entity} {ie : InternalEntity}
    (h : entLookup? es e = some ie) :
    ∃ p ∈ es, p.2 = ie ∧ (p.1.id == e.id) = true := by
  simp only [entLookup?, Option.map_eq_some'] at h
  obtain ⟨p, hp, hsnd⟩ := h
  refine ⟨p, List.mem_of_find?_eq_some hp, hsnd, ?_⟩
  have h2 := List.find?_some hp
  simpa using h2

theorem contains_of_mem {w : World} {p : Entity × InternalEntity}
    (hm : p ∈ w.entities) : w.contains p.1 = true := by
  simp only [World.contains, entMember, List.any_eq_true]
  exact ⟨p, hm, by simp⟩

theorem entLookup?_entSet_self (es : EntMap) (k : Entity) (v : InternalEntity) :
    entLookup? (entSet es k v) k = some v := by
  unfold entSet
  by_cases h : entMember es k = true
  · simp only [h, if_true, entLookup?, List.find?_map]
    have hpred : ((fun p : Entity × InternalEntity => p.1.id == k.id) ∘
        (fun p : Entity × InternalEntity =>
          if p.1.id == k.id then (p.1, v) else p)) =
        (fun p : Entity × InternalEntity => p.1.id == k.id) := by
      funext p
      by_cases hp : p.1.id = k.id <;> simp [hp]
    rw [hpred]
    obtain ⟨p0, hp0⟩ := Option.isSome_iff_exists.mp
      (List.find?_isSome.mpr (List.any_eq_true.mp h))
    have hpr := List.find?_some hp0
    simp only [hp0, Option.map_some']
    simp only [] at hpr
    simp [hpr]
  · simp only [h, if_false, entLookup?, List.find?_append]
    have hnone : es.find? (fun p => p.1.id == k.id) = Option.none := by
      rw [List.find?_eq_none]
      intro x hx hpx
      exact h (List.any_eq_true.mpr ⟨x, hx, hpx⟩)
    simp [hnone]

theorem entMember_entDel (es : EntMap) (e : Entity) :
    entMember (entDel es e) e = false := by
  rw [Bool.eq_false_iff]
  intro h
  obtain ⟨p, hp, hpe⟩ := List.any_eq_true.mp h
  rw [entDel, List.mem_filter] at hp
  exact absurd hpe (by simpa using hp.2)

theorem entMember_entUpdate (es : EntMap) (e x : Entity)
    (f : InternalEntity → InternalEntity) :
    entMember (entUpdate es e f) x = entMember es x := by
  rw [entUpdate, entMember, List.any_map, entMember]
  apply Bool.eq_iff_iff.mpr
  simp only [List.any_eq_true, Function.comp_apply]
  constructor
  · rintro ⟨p, hp, hpe⟩
    refine ⟨p, hp, ?_⟩
    by_cases h : p.1.id = e.id <;> simpa [h] using hpe
  · rintro ⟨p, hp, hpe⟩
    refine ⟨p, hp, ?_⟩
    by_cases h : p.1.id = e.id <;> simpa [h] using hpe

theorem entLookup?_entUpdate_self (es : EntMap) (e : Entity)
    (f : InternalEntity → InternalEntity) :
    entLookup? (entUpdate es e f) e = (entLookup? es e).map f := by
  rw [entUpdate, entLookup?, List.find?_map]
  have hpred : ((fun p : Entity × InternalEntity => p.1.id == e.id) ∘
      (fun p : Entity × InternalEntity =>
        if p.1.id == e.id then (p.1, f p.2) else p)) =
      (fun p : Entity × InternalEntity => p.1.id == e.id) := by
    funext p
    by_cases hp : p.1.id = e.id <;> simp [hp]
  rw [hpred, entLookup?]
  rcases h : es.find? (fun p => p.1.id == e.id) with _ | p
  · rw [h]
    rfl
  · rw [h]
    have hpr := List.find?_some h
    simp only [] at hpr
    simp [beq_iff_eq.mp hpr]

theorem entUpdate_congr {es : EntMap} {e : Entity}
    {f g : InternalEntity → InternalEntity} (h : ∀ ie, f ie = g ie) :
    entUpdate es e f = entUpdate es e g := by
  rw [funext h]

theorem entUpdate_entUpdate (es : EntMap) (e : Entity)
    (f g : InternalEntity → InternalEntity) :
    entUpdate (entUpdate es e f) e g = entUpdate es e (fun ie => g (f ie)) := by
  simp only [entUpdate, List.map_map]
  congr 1
  funext p
  by_cases hp : p.1.id = e.id <;> simp [hp]

theorem foldl_compDel_eq_filter (ts : List Nat) (m : CompMap) :
    ts.foldl compDel m = m.filter (fun c => !(ts.any fun t => c.tag == t)) := by
  induction ts generalizing m with
  | nil => simp
  | cons a ts ih =>
    rw [List.foldl_cons, compDel, ih, List.filter_filter]
    congr 1
    funext c
    cases hb : (c.tag == a) <;> simp [bne, hb, Bool.and_comm]

theorem foldl_compDel_idem (ts : List Nat) (m : CompMap) :
    ts.foldl compDel (ts.foldl compDel m) = ts.foldl compDel m := by
  rw [foldl_compDel_eq_filter, foldl_compDel_eq_filter, List.filter_filter]
  congr 1
  funext c
  by_cases h : (ts.any fun t => c.tag == t) = true <;> simp [h]

theorem compGet?_foldl_compDel (ts : List Nat) (m : CompMap) (t : Nat) :
    compGet? (ts.foldl compDel m) t =
      if t ∈ ts then Option.none else compGet? m t := by
  rw [foldl_compDel_eq_filter, compGet?, List.find?_filter]
  by_cases h : t ∈ ts
  · simp only [h, if_true]
    rw [List.find?_eq_none]
    intro c _ hc
    have hc' := of_decide_eq_true hc
    obtain ⟨hq, hp⟩ := hc'
    rw [beq_iff_eq] at hp
    have hq' : ∀ x ∈ ts, ¬c.tag = x := by simpa using hq
    exact hq' t h hp
  · simp only [h, if_false, compGet?]
    congr 1
    funext c
    by_cases hc : c.tag = t
    · have hnone : (ts.any fun x => c.tag == x) = false := by
        rw [Bool.eq_false_iff]
        intro hx
        obtain ⟨x, hx1, hx2⟩ := List.any_eq_true.mp hx
        rw [beq_iff_eq] at hx2
        have hxt : x = t := by omega
        exact h (hxt ▸ hx1)
      simp [hnone, hc]
      intro x hx hxx
      subst hxx
      exact h hx
    · simp [hc]

/-- The last supplied component of a given type ("the last ci of that type"
in the insert/get consistency property). -/
def lastWithTag (cs : List Component) (t : Nat) : Option Component :=
  cs.reverse.find? (fun c => c.tag == t)

theorem compGet?_compSet (m : CompMap) (c : Component) (t : Nat) :
    compGet? (compSet m c) t = if c.tag = t then some c else compGet? m t := by
  unfold compSet compGet?
  by_cases h : compHas m c.tag = true
  · simp only [h, if_true, List.find?_map]
    by_cases hct : c.tag = t
    · subst hct
      have hpred : ((fun x : Component => x.tag == c.tag) ∘
          (fun x : Component => if x.tag == c.tag then c else x)) =
          (fun x : Component => x.tag == c.tag) := by
        funext x
        by_cases hx : x.tag = c.tag <;> simp [hx]
      rw [hpred]
      obtain ⟨x0, hx0⟩ := Option.isSome_iff_exists.mp
        (List.find?_isSome.mpr (List.any_eq_true.mp h))
      have hx0p := List.find?_some hx0
      simp only [] at hx0p
      rw [hx0]
      simp [beq_iff_eq.mp hx0p]
    · have hpred : ((fun x : Component => x.tag == t) ∘
          (fun x : Component => if x.tag == c.tag then c else x)) =
          (fun x : Component => x.tag == t) := by
        funext x
        by_cases hx : x.tag = c.tag
        · simp [hx, hct]
        · simp [hx]
      rw [hpred]
      rcases hx0 : m.find? (fun x => x.tag == t) with _ | x0
      · simp [hct, hx0]
      · have hx0p := List.find?_some hx0
        simp only [beq_iff_eq] at hx0p
        have hxc : ¬ x0.tag = c.tag := by omega
        simp [hct, hx0, hxc]
  · have h' : compHas m c.tag = false := by simpa using h
    simp only [h', Bool.false_eq_true, if_false, List.find?_append]
    by_cases hct : c.tag = t
    · have hnone : m.find? (fun x => x.tag == t) = Option.none := by
        rw [List.find?_eq_none]
        intro x hx hpx
        rw [Bool.eq_false_iff] at h'
        apply h'
        rw [beq_iff_eq] at hpx
        exact List.any_eq_true.mpr ⟨x, hx, by simp [hpx, hct]⟩
      simp [hnone, hct]
    · simp [hct]

theorem compGet?_foldl_compSet (cs : List Component) (m : CompMap) (t : Nat) :
    compGet? (cs.foldl compSet m) t = (lastWithTag cs t).or (compGet? m t) := by
  induction cs generalizing m with
  | nil => simp [lastWithTag]
  | cons c cs ih =>
    rw [List.foldl_cons, ih, compGet?_compSet]
    simp only [lastWithTag, List.reverse_cons, List.find?_append,
      Option.or_assoc]
    congr 1
    by_cases hct : c.tag = t <;> simp [hct]

theorem lastWithTag_isSome_of_mem {cs : List Component} {c : Component}
    (h : c ∈ cs) : (lastWithTag cs c.tag).isSome = true := by
  rw [lastWithTag, List.find?_isSome]
  exact ⟨c, List.mem_reverse.mpr h, by simp⟩

/-- The negation of the `has`-failure test for a list filter equals the
spec-side all-present check (the empty list is falsy, hence vacuously
passes). -/
theorem not_hasFail (ts : List Nat) (p : Nat → Bool) :
    (ts.isEmpty || !ts.any fun t => !p t) = ts.all p := by
  cases ts with
  | nil => rfl
  | cons a l => simp [List.all_eq_not_any_not]

/-- The negation of the `without`-failure test for a list filter equals the
spec-side none-present check. -/
theorem not_woFail (ts : List Nat) (p : Nat → Bool) :
    (ts.isEmpty || !ts.any p) = ts.all fun t => !p t := by
  cases ts with
  | nil => rfl
  | cons a l => simp [List.all_eq_not_any_not, Bool.not_not]

/-! ### Allocator lemmas -/

theorem next_despawn (w : World) (e : Entity) :
    (w.despawn e).1.next_entity_id = w.next_entity_id := by
  rw [World.despawn]
  split <;> rfl

theorem next_take (w : World) (e : Entity) :
    (w.take e).1.next_entity_id = w.next_entity_id := by
  rw [World.take]
  split
  · rfl
  · exact next_despawn w e

/-- `spawn` advances the allocator by one; no other operation touches it. -/
theorem next_applyOp_eq (w : World) (op : Op) :
    (applyOp w op).next_entity_id =
      w.next_entity_id +
        (match op with | Op.spawn _ => (1 : Int) | _ => 0) := by
  cases op with
  | spawn cs => rfl
  | spawn_at e cs => simp [applyOp, World.spawn_at]
  | despawn e => simpa using next_despawn w e
  | clear => simp [applyOp, World.clear]
  | insert e cs =>
    rw [applyOp, World.insert]
    split <;> simp
  | remove e ts =>
    rw [applyOp, World.remove]
    split <;> simp
  | take e => simpa using next_take w e

/-- The ids handed out by the spawns of a trace are consecutive, starting at
the initial allocator value. -/
theorem spawnIds_eq_range (ops : List Op) : ∀ w : World,
    spawnIds w ops =
      (List.range (numSpawns ops)).map
        (fun i : Nat => w.next_entity_id + (i : Int)) := by
  induction ops with
  | nil => intro w; rfl
  | cons op rest ih =>
    intro w
    rw [spawnIds, ih]
    cases op with
    | spawn cs =>
      have hn : numSpawns (Op.spawn cs :: rest) = numSpawns rest + 1 := by
        simp [numSpawns, Nat.add_comm]
      rw [hn, List.range_succ_eq_map]
      simp only [opIds, List.singleton_append, next_applyOp_eq, List.map_cons,
        List.map_map]
      congr 1
      · simp [World.spawn]
      · congr 1
        funext i
        simp only [Function.comp_apply]
        push_cast
        ring
    | spawn_at e cs => simp [numSpawns, opIds, next_applyOp_eq]
    | despawn e => simp [numSpawns, opIds, next_applyOp_eq]
    | clear => simp [numSpawns, opIds, next_applyOp_eq]
    | insert e cs => simp [numSpawns, opIds, next_applyOp_eq]
    | remove e ts => simp [numSpawns, opIds, next_applyOp_eq]
    | take e => simp [numSpawns, opIds, next_applyOp_eq]

/-- After running a trace, the allocator equals its initial value plus the
number of spawns performed. -/
theorem next_foldl (ops : List Op) : ∀ w : World,
    (ops.foldl applyOp w).next_entity_id =
      w.next_entity_id + (numSpawns ops : Int) := by
  induction ops with
  | nil => intro w; simp [numSpawns]
  | cons op rest ih =>
    intro w
    rw [List.foldl_cons, ih, next_applyOp_eq]
    cases op <;> (simp only [numSpawns]; push_cast; ring)

/-- The has-skip test of `find`'s loop equals the negation of the spec-side
all-present check. -/
theorem hSkip_eq (cs : CompMap) (o : Option (List Nat)) :
    (listTruthy o && (o.getD []).any fun c => !compHas cs c) =
      !allPresent cs o := by
  rcases o with _ | ts
  · rfl
  · cases ts <;>
      simp [listTruthy, allPresent, List.all_eq_not_any_not, Bool.not_not]

/-- The without-skip test of `find`'s loop equals the negation of the
spec-side none-present check. -/
theorem wSkip_eq (cs : CompMap) (o : Option (List Nat)) :
    (listTruthy o && (o.getD []).any fun c => compHas cs c) =
      !nonePresent cs o := by
  rcases o with _ | ts
  · rfl
  · cases ts <;>
      simp [listTruthy, nonePresent, List.all_eq_not_any_not, Bool.not_not]

/-- The loop body of `find` yields a row exactly when the spec-side matching
rule holds, and that row is the record's entity followed by the R-typed
components in the order requested. -/
theorem findRow_eq (R : List Nat) (has wo : HasArg) (ie : InternalEntity) :
    findRow R has.normalize wo.normalize ie =
      (if specMatch ie.components R has wo then
        some (ie.entity, R.filterMap fun c => compGet? ie.components c)
      else Option.none) := by
  unfold findRow specMatch specHWMatch
  rw [hSkip_eq, wSkip_eq]
  cases h1 : allPresent ie.components has.normalize <;>
    cases h2 : nonePresent ie.components wo.normalize <;>
      cases h3 : (R.all fun c => compHas ie.components c) <;>
        simp [h1, h2, h3]

/-! ### Reachable-state invariant -/

/-- Every stored record's entity field carries the same id as the dict key it
is registered under. -/
def World.wf (w : World) : Prop :=
  ∀ p ∈ w.entities, p.2.entity.id = p.1.id

theorem wf_entSet {es : EntMap} (hwf : ∀ p ∈ es, p.2.entity.id = p.1.id)
    {k : Entity} {v : InternalEntity} (hv : v.entity.id = k.id) :
    ∀ p ∈ entSet es k v, p.2.entity.id = p.1.id := by
  intro p hp
  rw [entSet] at hp
  by_cases h : entMember es k = true
  · rw [if_pos h] at hp
    obtain ⟨q, hq, hfq⟩ := List.mem_map.mp hp
    by_cases hqk : q.1.id = k.id
    · rw [← hfq]
      simp only [hqk, beq_self_eq_true, if_true]
      simpa [hqk] using hv
    · rw [← hfq]
      simp only [beq_iff_eq, hqk, if_false]
      exact hwf q hq
  · rw [if_neg h] at hp
    rcases List.mem_append.mp hp with h1 | h2
    · exact hwf p h1
    · have : p = (k, v) := by simpa using h2
      rw [this]
      exact hv

theorem wf_entUpdate {es : EntMap} (hwf : ∀ p ∈ es, p.2.entity.id = p.1.id)
    (e : Entity) (f : InternalEntity → InternalEntity)
    (hf : ∀ ie, (f ie).entity = ie.entity) :
    ∀ p ∈ entUpdate es e f, p.2.entity.id = p.1.id := by
  intro p hp
  obtain ⟨q, hq, hfq⟩ := List.mem_map.mp hp
  by_cases hqk : q.1.id = e.id
  · rw [← hfq]
    simp only [hqk, beq_self_eq_true, if_true, hf]
    exact (hwf q hq).trans hqk
  · rw [← hfq]
    simp only [beq_iff_eq, hqk, if_false]
    exact hwf q hq

theorem wf_despawn {w : World} (hwf : w.wf) (e : Entity) :
    ((w.despawn e).1).wf := by
  rw [World.despawn]
  by_cases h : entMember w.entities e = true
  · rw [if_pos h]
    intro p hp
    exact hwf p (List.mem_of_mem_filter hp)
  · rw [if_neg h]
    exact hwf

theorem wf_take {w : World} (hwf : w.wf) (e : Entity) :
    ((w.take e).1).wf := by
  rw [World.take]
  rcases h : entLookup? w.entities e with _ | ie
  · exact hwf
  · exact wf_despawn hwf e

/-- Every public operation preserves the key/record agreement invariant. -/
theorem wf_applyOp {w : World} (hwf : w.wf) (op : Op) : (applyOp w op).wf := by
  cases op with
  | spawn cs => exact wf_entSet hwf rfl
  | spawn_at e cs => exact wf_entSet hwf rfl
  | despawn e => exact wf_despawn hwf e
  | clear =>
    intro p hp
    simp [applyOp, World.clear] at hp
  | insert e cs =>
    rw [applyOp, World.insert]
    by_cases h : entMember w.entities e = true
    · rw [if_pos h]
      exact wf_entUpdate hwf e
        (fun ie => {entity := ie.entity,
                    components := cs.foldl compSet ie.components})
        (fun ie => rfl)
    · rw [if_neg h]
      exact hwf
  | remove e ts =>
    rw [applyOp, World.remove]
    by_cases h : entMember w.entities e = true
    · rw [if_pos h]
      exact wf_entUpdate hwf e
        (fun ie => {entity := ie.entity,
                    components := ts.foldl compDel ie.components})
        (fun ie => rfl)
    · rw [if_neg h]
      exact hwf
  | take e => exact wf_take hwf e

/-- Every state reachable from a fresh World is well-formed. -/
theorem wf_run (ops : List Op) : (run ops).wf := by
  rw [run]
  have haux : ∀ (l : List Op) (w : World), w.wf → (l.foldl applyOp w).wf := by
    intro l
    induction l with
    | nil => intro w hw; exact hw
    | cons op rest ih =>
      intro w hw
      exact ih _ (wf_applyOp hw op)
  refine haux ops World.init ?_
  intro p hp
  simp [World.init] at hp

theorem contains_of_entity_mem {w : World} {p : Entity × InternalEntity}
    (hp : p ∈ w.entities) {x : Entity} (hx : x.id = p.1.id) :
    w.contains x = true := by
  rw [World.contains]
  exact List.any_eq_true.mpr ⟨p, hp, by simp [hx]⟩

/-! ### Claim theorems -/

/-- C10: `Entity.__eq__` also accepts a raw integer: `Entity(n) == n` is true,
`Entity(m) == n` is false for `m ≠ n`, `Entity(m) == Entity(n)` holds exactly
when `m = n`, and the entity returned by `spawn` compares equal to the plain
integer identifier it wraps. -/
theorem entity_eq_accepts_raw_int :
    (∀ n : Int, (Entity.mk n).eq (.int n) = true) ∧
    (∀ m n : Int, m ≠ n → (Entity.mk m).eq (.int n) = false) ∧
    (∀ m n : Int, ((Entity.mk m).eq (.ent (Entity.mk n)) = true) ↔ m = n) ∧
    (∀ (w : World) (cs : List Component),
      ((w.spawn cs).2).eq (.int w.next_entity_id) = true) := by
  refine ⟨fun n => by simp [Entity.eq], fun m n h => by simp [Entity.eq, h],
    fun m n => by simp [Entity.eq], fun w cs => by simp [Entity.eq, World.spawn]⟩

theorem entity_eq_accepts_raw_int_witness :
    (Entity.mk 5).eq (.int 5) = true ∧ (Entity.mk 5).eq (.int 7) = false :=
  ⟨entity_eq_accepts_raw_int.1 5,
   entity_eq_accepts_raw_int.2.1 5 7 (by decide)⟩

/-- C2 (failing inputs): `find_on` on an unregistered entity raises rather
than yielding nothing — on the empty world, consuming `find_on(Entity(0))`
raises `KeyError`; and the has/without filters are ignored — with one entity
holding only a tag-0 component, `find_on(e, has=type 5)` still yields the
row even though the has filter fails. -/
theorem find_on_bug_evaluation :
    (World.init.find_on ⟨0⟩ [] .none .none = .raised) ∧
    ((World.init.spawn [⟨0, 1⟩]).1.find_on ⟨0⟩ [] (.single 5) .none
       = .ok [(⟨0⟩, [])]) := by decide

/-- C5: `satisfies(e, has=H, without=W)` is true iff `e` is registered, every
type in H (after normalization) is present in `e`'s component map, and no type
in W is present; a freshly spawned component-less entity satisfies the
filterless call, fails `has=T` for every type `T`, and an unregistered entity
never satisfies. -/
theorem satisfies_matches_rule :
    (∀ (w : World) (e : Entity) (has wo : HasArg),
      w.satisfies e has wo =
        (w.contains e && specHWMatch (componentsOf w e) has wo)) ∧
    (∀ w : World, ((w.spawn []).1.satisfies (w.spawn []).2 .none .none) = true) ∧
    (∀ (w : World) (T : Nat),
      ((w.spawn []).1.satisfies (w.spawn []).2 (.single T) .none) = false) ∧
    (∀ (w : World) (e : Entity) (has wo : HasArg),
      w.contains e = false → w.satisfies e has wo = false) := by
  have main : ∀ (w : World) (e : Entity) (has wo : HasArg),
      w.satisfies e has wo =
        (w.contains e && specHWMatch (componentsOf w e) has wo) := by
    intro w e has wo
    simp only [World.satisfies, World.contains, entMember_eq_isSome,
      componentsOf]
    rcases hl : entLookup? w.entities e with _ | ie
    · simp
    · simp only [Option.isSome_some, Bool.true_and, Option.elim_some]
      cases has <;> cases wo <;>
        simp [specHWMatch, HasArg.normalize, not_hasFail, not_woFail,
          Bool.not_not, allPresent, nonePresent]
  have hfresh : ∀ w : World,
      entLookup? ((w.spawn []).1).entities (w.spawn []).2 =
        some ⟨⟨w.next_entity_id⟩, []⟩ := by
    intro w
    exact entLookup?_entSet_self _ _ _
  refine ⟨main, ?_, ?_, ?_⟩
  · intro w
    rw [main]
    simp [World.contains, entMember_eq_isSome, hfresh w, componentsOf,
      specHWMatch, HasArg.normalize, allPresent, nonePresent]
  · intro w T
    rw [main]
    simp [World.contains, entMember_eq_isSome, hfresh w, componentsOf,
      specHWMatch, HasArg.normalize, compHas, allPresent, nonePresent]
  · intro w e has wo h
    simp [main, h]

theorem satisfies_matches_rule_witness :
    World.init.contains ⟨3⟩ = false ∧
      World.init.satisfies ⟨3⟩ .none .none = false :=
  ⟨by decide, satisfies_matches_rule.2.2.2 World.init ⟨3⟩ .none .none (by decide)⟩

/-- C6: for a registered entity, `take(e)` returns a collection whose contents
equal the component values `e` held, and afterwards `contains(e)` is false;
for an absent entity it returns the empty collection and leaves the World
unchanged, signalling no error. -/
theorem take_returns_and_removes (w : World) (e : Entity) :
    (w.contains e = true →
      ((w.take e).2 : Multiset Component) =
        (componentsOf w e : Multiset Component) ∧
      (w.take e).1.contains e = false) ∧
    (w.contains e = false → w.take e = (w, [])) := by
  constructor
  · intro h
    rw [World.contains, entMember_eq_isSome] at h
    obtain ⟨ie, hie⟩ := Option.isSome_iff_exists.mp h
    have hm : entMember w.entities e = true := by
      rw [entMember_eq_isSome, hie]
      rfl
    constructor
    · simp [World.take, hie, componentsOf]
    · simp [World.take, hie, World.despawn, hm, World.contains,
        entMember_entDel]
  · intro h
    rw [World.contains, entMember_eq_isSome] at h
    rcases hie : entLookup? w.entities e with _ | ie
    · simp [World.take, hie]
    · rw [hie] at h
      simp at h

theorem take_returns_and_removes_witness :
    ((World.init.spawn [⟨0, 7⟩]).1.contains ⟨0⟩ = true ∧
      ((((World.init.spawn [⟨0, 7⟩]).1.take ⟨0⟩).2 : Multiset Component) =
          (componentsOf (World.init.spawn [⟨0, 7⟩]).1 ⟨0⟩ : Multiset Component) ∧
        (((World.init.spawn [⟨0, 7⟩]).1.take ⟨0⟩).1.contains ⟨0⟩) = false)) ∧
    (World.init.contains ⟨9⟩ = false ∧
      World.init.take ⟨9⟩ = (World.init, [])) :=
  ⟨⟨by decide, (take_returns_and_removes (World.init.spawn [⟨0, 7⟩]).1 ⟨0⟩).1
      (by decide)⟩,
   ⟨by decide, (take_returns_and_removes World.init ⟨9⟩).2 (by decide)⟩⟩

/-- C8: `remove(e, T1..Tn)` deletes exactly the listed types present on a
registered entity (a lookup of a listed type afterwards finds nothing, any
other lookup is unchanged), silently ignores listed types not present, is a
silent no-op on an unregistered entity, and is idempotent. -/
theorem remove_deletes_listed_and_idempotent (w : World) (e : Entity)
    (ts : List Nat) :
    (w.contains e = false → w.remove e ts = w) ∧
    (∀ t : Nat, (w.remove e ts).get e t =
        if t ∈ ts then Option.none else w.get e t) ∧
    ((w.remove e ts).remove e ts = w.remove e ts) := by
  have hmem := entMember_eq_isSome w.entities e
  refine ⟨?_, ?_, ?_⟩
  · intro h
    rw [World.contains] at h
    simp [World.remove, h]
  · intro t
    by_cases h : entMember w.entities e = true
    · obtain ⟨ie, hie⟩ := Option.isSome_iff_exists.mp (hmem ▸ h)
      have hup := entLookup?_entUpdate_self w.entities e
        (fun ie => ⟨ie.entity, ts.foldl compDel ie.components⟩)
      rw [hie] at hup
      simp only [World.remove, h, if_true, World.get, hup, Option.map_some']
      rw [compGet?_foldl_compDel]
      simp [hie]
    · have h' : entMember w.entities e = false := by
        simpa using h
      simp only [World.remove, h', Bool.false_eq_true, if_false, World.get]
      rcases hie : entLookup? w.entities e with _ | ie
      · simp
      · rw [hmem, hie] at h'
        simp at h'
  · by_cases h : entMember w.entities e = true
    · simp only [World.remove, h, if_true]
      have h2 : entMember (entUpdate w.entities e
          (fun ie => ⟨ie.entity, ts.foldl compDel ie.components⟩)) e = true := by
        rw [entMember_entUpdate]
        exact h
      simp only [h2, if_true]
      congr 1
      rw [entUpdate_entUpdate]
      apply entUpdate_congr
      intro ie
      simp [foldl_compDel_idem]
    · simp [World.remove, h]

theorem remove_witness :
    World.init.contains ⟨4⟩ = false ∧
      World.init.remove ⟨4⟩ [0] = World.init :=
  ⟨by decide,
   (remove_deletes_listed_and_idempotent World.init ⟨4⟩ [0]).1 (by decide)⟩

/-- C3: over any sequence of spawn calls interleaved with despawn calls on
one World, the identifiers of the entities returned by spawn form a strictly
increasing sequence starting at 0 with no value repeated. -/
theorem spawn_ids_strictly_increasing (ops : List Op)
    (h : ∀ op ∈ ops, op.isSpawnOrDespawn = true) :
    List.Chain' (· < ·) (spawnIds World.init ops) ∧
    (spawnIds World.init ops).Nodup ∧
    (spawnIds World.init ops ≠ [] →
      (spawnIds World.init ops).head? = some 0) := by
  have hr := spawnIds_eq_range ops World.init
  have hpw : List.Pairwise (· < ·) (spawnIds World.init ops) := by
    rw [hr, List.pairwise_map]
    exact (List.pairwise_lt_range _).imp (fun hab => by omega)
  refine ⟨hpw.chain', hpw.imp ne_of_lt, ?_⟩
  intro hne
  rw [hr] at hne ⊢
  rcases hzero : numSpawns ops with _ | m
  · simp at hne
    exact absurd hzero hne
  · rw [List.range_succ_eq_map]
    simp [World.init]

theorem spawn_ids_strictly_increasing_witness :
    (∀ op ∈ [Op.spawn [], Op.despawn ⟨0⟩, Op.spawn []],
      op.isSpawnOrDespawn = true) ∧
    List.Chain' (· < ·)
      (spawnIds World.init [Op.spawn [], Op.despawn ⟨0⟩, Op.spawn []]) :=
  ⟨by decide,
   (spawn_ids_strictly_increasing [Op.spawn [], Op.despawn ⟨0⟩, Op.spawn []]
      (by decide)).1⟩

/-- C7: `clear()` empties the entity population (`iter` yields nothing,
`contains` is false everywhere) but leaves the allocator untouched, so the
next spawn after a clear returns an identifier strictly greater than every
identifier previously issued by that World. -/
theorem clear_resets_population_not_allocator :
    (∀ w : World, w.clear.iter = [] ∧ w.clear.entities = []) ∧
    (∀ (w : World) (e : Entity), w.clear.contains e = false) ∧
    (∀ w : World, w.clear.next_entity_id = w.next_entity_id) ∧
    (∀ ops : List Op, ∀ i ∈ spawnIds World.init ops,
      i < (((run ops).clear.spawn []).2).id) := by
  refine ⟨fun w => ⟨rfl, rfl⟩, fun w e => rfl, fun w => rfl, ?_⟩
  intro ops i hi
  rw [spawnIds_eq_range] at hi
  obtain ⟨k, hk, hki⟩ := List.mem_map.mp hi
  rw [List.mem_range] at hk
  have hnext : (((run ops).clear.spawn []).2).id =
      (run ops).next_entity_id := rfl
  rw [hnext, run, next_foldl]
  have h0 : World.init.next_entity_id = 0 := rfl
  rw [h0] at hki ⊢
  omega

theorem clear_witness :
    (0 : Int) ∈ spawnIds World.init [Op.spawn []] ∧
    (0 : Int) < (((run [Op.spawn []]).clear.spawn []).2).id :=
  ⟨by decide,
   clear_resets_population_not_allocator.2.2.2 [Op.spawn []] 0 (by decide)⟩

/-- C1: `find(*R, has=H, without=W)` yields, in registration order, exactly
one tuple per registered entity whose component map satisfies the matching
rule (every type in R present, every type in normalized H present, no type in
W present); each tuple is the entity followed by its R-typed components in
the order R was given, and non-matching entities are not yielded. -/
theorem find_matches_rule (w : World) (R : List Nat) (has wo : HasArg) :
    w.find R has wo =
      (w.entities.filter fun p => specMatch p.2.components R has wo).map
        fun p => (p.2.entity, R.filterMap fun c => compGet? p.2.components c) := by
  rw [World.find]
  simp only [findRow_eq]
  induction w.entities with
  | nil => rfl
  | cons p es ih =>
    rw [List.filterMap_cons, List.filter_cons]
    cases h : specMatch p.2.components R has wo <;> simp [h, ih]

/-- C4: on a registered entity, `insert(e, c1..cn)` signals no error and
stores each supplied component under its type tag with last-write-wins, so
`get(e, type(ci))` afterwards returns the last supplied component of that
type; on an absent entity it returns `NoSuchEntity` and leaves the World
unchanged. -/
theorem insert_stores_or_errors (w : World) (e : Entity)
    (cs : List Component) :
    (w.contains e = true →
      (w.insert e cs).2 = Option.none ∧
      ∀ c ∈ cs, (w.insert e cs).1.get e c.tag = lastWithTag cs c.tag ∧
        (lastWithTag cs c.tag).isSome = true) ∧
    (w.contains e = false → w.insert e cs = (w, some Error.NoSuchEntity)) := by
  constructor
  · intro h
    rw [World.contains] at h
    refine ⟨by simp [World.insert, h], fun c hc => ?_⟩
    obtain ⟨ie, hie⟩ :=
      Option.isSome_iff_exists.mp (entMember_eq_isSome w.entities e ▸ h)
    have hup := entLookup?_entUpdate_self w.entities e
      (fun ie => ⟨ie.entity, cs.foldl compSet ie.components⟩)
    rw [hie] at hup
    have hsome := lastWithTag_isSome_of_mem hc
    obtain ⟨x, hx⟩ := Option.isSome_iff_exists.mp hsome
    refine ⟨?_, hsome⟩
    simp only [World.insert, h, if_true, World.get, hup, Option.map_some']
    rw [compGet?_foldl_compSet, hx]
    rfl
  · intro h
    rw [World.contains] at h
    simp [World.insert, h]

theorem insert_stores_or_errors_witness :
    ((World.init.spawn []).1.contains ⟨0⟩ = true ∧
      (((World.init.spawn []).1.insert ⟨0⟩
          [⟨0, 1⟩, ⟨0, 2⟩]).2 = Option.none ∧
        ∀ c ∈ ([⟨0, 1⟩, ⟨0, 2⟩] : List Component),
          ((World.init.spawn []).1.insert ⟨0⟩ [⟨0, 1⟩, ⟨0, 2⟩]).1.get ⟨0⟩
              c.tag = lastWithTag [⟨0, 1⟩, ⟨0, 2⟩] c.tag ∧
            (lastWithTag [⟨0, 1⟩, ⟨0, 2⟩] c.tag).isSome = true)) ∧
    (World.init.contains ⟨6⟩ = false ∧
      World.init.insert ⟨6⟩ [⟨0, 1⟩] =
        (World.init, some Error.NoSuchEntity)) :=
  ⟨⟨by decide,
    (insert_stores_or_errors (World.init.spawn []).1 ⟨0⟩
        [⟨0, 1⟩, ⟨0, 2⟩]).1 (by decide)⟩,
   ⟨by decide,
    (insert_stores_or_errors World.init ⟨6⟩ [⟨0, 1⟩]).2 (by decide)⟩⟩

/-- C9: in every reachable World state, each stored record carries an entity
equal (by id) to the key it is registered under, and every entity yielded by
`iter`, `find`, `find_on`, or `iter_every` is currently registered
(`contains` holds for it). -/
theorem query_results_registered (ops : List Op) (R : List Nat)
    (has wo : HasArg) (e : Entity) :
    (∀ p ∈ (run ops).entities, p.2.entity.id = p.1.id) ∧
    (∀ x ∈ (run ops).iter, (run ops).contains x = true) ∧
    (∀ row ∈ (run ops).find R has wo, (run ops).contains row.1 = true) ∧
    (∀ rows, (run ops).find_on e R has wo = .ok rows →
      ∀ row ∈ rows, (run ops).contains row.1 = true) ∧
    (∀ pr ∈ (run ops).iter_every, (run ops).contains pr.1 = true) := by
  have hwf := wf_run ops
  refine ⟨hwf, ?_, ?_, ?_, ?_⟩
  · intro x hx
    obtain ⟨p, hp, hpe⟩ := List.mem_map.mp hx
    rw [← hpe]
    exact contains_of_entity_mem hp (hwf p hp)
  · intro row hrow
    obtain ⟨p, hp, hsome⟩ := List.mem_filterMap.mp hrow
    rw [findRow_eq] at hsome
    by_cases hm : specMatch p.2.components R has wo = true
    · rw [if_pos hm] at hsome
      obtain rfl := Option.some.inj hsome
      exact contains_of_entity_mem hp (hwf p hp)
    · rw [if_neg hm] at hsome
      exact absurd hsome (by simp)
  · intro rows hok row hrow
    unfold World.find_on at hok
    rcases hl : entLookup? (run ops).entities e with _ | ie
    · rw [hl] at hok
      exact absurd hok (by simp)
    · rw [hl] at hok
      have hok' : (if (R.all fun c => compHas ie.components c) = true then
          PyResult.ok [(ie.entity, R.filterMap fun c => compGet? ie.components c)]
        else PyResult.ok ([] : List (Entity × List Component)))
          = PyResult.ok rows := hok
      obtain ⟨p, hp, hpie, hpid⟩ := entLookup?_mem hl
      by_cases hall : (R.all fun c => compHas ie.components c) = true
      · rw [if_pos hall] at hok'
        obtain rfl : ([(ie.entity, R.filterMap fun c => compGet? ie.components c)]
            : List (Entity × List Component)) = rows := by
          injection hok'
        have hre : row = (ie.entity, R.filterMap fun c => compGet? ie.components c) := by
          simpa using hrow
        rw [hre]
        refine contains_of_entity_mem hp ?_
        rw [← hpie]
        exact hwf p hp
      · rw [if_neg hall] at hok'
        obtain rfl : ([] : List (Entity × List Component)) = rows := by
          injection hok'
        simp at hrow
  · intro pr hpr
    obtain ⟨p, hp, hpe⟩ := List.mem_map.mp hpr
    rw [← hpe]
    exact contains_of_entity_mem hp rfl

theorem query_results_registered_witness :
    (⟨0⟩ : Entity) ∈ (run [Op.spawn []]).iter ∧
      (run [Op.spawn []]).contains ⟨0⟩ = true :=
  ⟨by decide,
   (query_results_registered [Op.spawn []] [] .none .none ⟨0⟩).2.1 ⟨0⟩
     (by decide)⟩

end Phecs
